import Mathlib

/-!
# Verification of the drag-to-reorder engine

Shallow embedding of the reorder engine of `react-native-draggable-order-list`:
the position table and its swap-resolution step (`DraggableItem.tsx`, `onUpdate`),
the swap-resolver scan over item heights, the drag-end handler
(`DraggableItem.tsx` `onEnd` and `DraggableList.tsx` `handleDragEnd`),
the auto-scroll tick (`useAutoScroll.ts`) and its interval lifecycle,
and the position-table re-derivation on data supply (`DraggableList.tsx`).
-/

namespace DraggableOrderList

/-! ## Position table and the swap-resolution step

The position table maps each item (modelled as `Fin n`) to its current slot
(a natural number; the invariant says slots form a permutation of `[0, n-1]`).

`resolveStep` is the body of `positions.modify` in `DraggableItem.tsx`:
the dragged item `d` receives the (already clamped) target slot `t`; every other
item whose slot lies strictly between the old slot and `t`, inclusive of `t`,
shifts by one toward the old slot.
-/

/-- Action of one swap resolution on a single slot value: the dragged item's
old slot `s` goes to `t`, slots in the in-between range shift by one toward `s`,
all other slots are unchanged.  This is the slot-level content of the
`Object.keys(value).forEach` loop in `DraggableItem.tsx`. -/
def moveSlot (s t x : ℕ) : ℕ :=
  if x = s then t
  else if t > s ∧ x > s ∧ x ≤ t then x - 1
  else if t < s ∧ x < s ∧ x ≥ t then x + 1
  else x

/-- The `positions.modify` update from `DraggableItem.tsx` `onUpdate`:
`value[draggableItemKey] = newPosition`, and every other key with
`newPosition > oldPosition && itemPos > oldPosition && itemPos <= newPosition`
gets `itemPos - 1`, symmetrically `+ 1` for a move up. -/
def resolveStep (n : ℕ) (p : Fin n → ℕ) (d : Fin n) (t : ℕ) : Fin n → ℕ :=
  fun i =>
    if i = d then t
    else if t > p d ∧ p i > p d ∧ p i ≤ t then p i - 1
    else if t < p d ∧ p i < p d ∧ p i ≥ t then p i + 1
    else p i

/-- `Math.max(0, Math.min(listLength - 1, newPos))` from `DraggableItem.tsx`. -/
def clampPos (n raw : ℕ) : ℕ := max 0 (min (n - 1) raw)

/-- One full resolution of a drag update: the raw scan result is clamped to
`[0, n-1]` and then committed by `resolveStep`. -/
def resolveDrag (n : ℕ) (p : Fin n → ℕ) (d : Fin n) (raw : ℕ) : Fin n → ℕ :=
  resolveStep n p d (clampPos n raw)

/-- A sequence of swap resolutions, each given by a dragged item and a raw
target position. -/
def resolveSeq (n : ℕ) (p : Fin n → ℕ) (steps : List (Fin n × ℕ)) : Fin n → ℕ :=
  steps.foldl (fun q st => resolveDrag n q st.1 st.2) p

/-- The position table is a permutation of `[0, n-1]`: every slot is in range
and no two items share a slot. -/
def IsPermOn (n : ℕ) (p : Fin n → ℕ) : Prop :=
  (∀ i, p i < n) ∧ Function.Injective p

theorem moveSlot_left_inv (s t x : ℕ) : moveSlot t s (moveSlot s t x) = x := by
  unfold moveSlot
  split_ifs <;> omega

theorem moveSlot_injective (s t : ℕ) : Function.Injective (moveSlot s t) := by
  intro a b h
  have ha := moveSlot_left_inv s t a
  have hb := moveSlot_left_inv s t b
  rw [← ha, ← hb, h]

theorem moveSlot_lt {n s t x : ℕ} (hs : s < n) (ht : t < n) (hx : x < n) :
    moveSlot s t x < n := by
  unfold moveSlot
  split_ifs <;> omega

/-- With an injective position table, the coded per-key branches agree with
`moveSlot` applied to the item's slot. -/
theorem resolveStep_eq_moveSlot {n : ℕ} {p : Fin n → ℕ} (hinj : Function.Injective p)
    (d : Fin n) (t : ℕ) (i : Fin n) :
    resolveStep n p d t i = moveSlot (p d) t (p i) := by
  unfold resolveStep moveSlot
  by_cases hid : i = d
  · subst hid; simp
  · have hne : p i ≠ p d := fun h => hid (hinj h)
    rw [if_neg hid, if_neg hne]

theorem resolveStep_permOn {n : ℕ} {p : Fin n → ℕ} (hp : IsPermOn n p)
    (d : Fin n) {t : ℕ} (ht : t < n) : IsPermOn n (resolveStep n p d t) := by
  obtain ⟨hb, hinj⟩ := hp
  constructor
  · intro i
    rw [resolveStep_eq_moveSlot hinj]
    exact moveSlot_lt (hb d) ht (hb i)
  · intro a b h
    rw [resolveStep_eq_moveSlot hinj, resolveStep_eq_moveSlot hinj] at h
    exact hinj (moveSlot_injective _ _ h)

theorem clampPos_lt {n : ℕ} (hn : 0 < n) (raw : ℕ) : clampPos n raw < n := by
  unfold clampPos
  omega

theorem resolveDrag_permOn {n : ℕ} {p : Fin n → ℕ} (hp : IsPermOn n p)
    (d : Fin n) (raw : ℕ) : IsPermOn n (resolveDrag n p d raw) :=
  resolveStep_permOn hp d (clampPos_lt d.pos raw)

theorem resolveSeq_permOn {n : ℕ} (steps : List (Fin n × ℕ)) :
    ∀ {p : Fin n → ℕ}, IsPermOn n p → IsPermOn n (resolveSeq n p steps) := by
  induction steps with
  | nil => intro p hp; exact hp
  | cons st rest ih =>
      intro p hp
      exact ih (resolveDrag_permOn hp st.1 st.2)

/-- A bounded injective table hits every slot in `[0, n-1]` exactly once. -/
theorem permOn_bijection {n : ℕ} {p : Fin n → ℕ} (hp : IsPermOn n p) :
    ∀ m, m < n → ∃! i, p i = m := by
  obtain ⟨hb, hinj⟩ := hp
  intro m hm
  let g : Fin n → Fin n := fun i => ⟨p i, hb i⟩
  have hginj : Function.Injective g := by
    intro a b h
    exact hinj (congrArg Fin.val h)
  have hgsurj : Function.Surjective g := Finite.injective_iff_surjective.mp hginj
  obtain ⟨i, hi⟩ := hgsurj ⟨m, hm⟩
  have hpi : p i = m := by simpa using congrArg Fin.val hi
  refine ⟨i, hpi, ?_⟩
  intro j hj
  apply hinj
  rw [hj, hpi]

/-- C1: for every position table that is a permutation of `[0, n-1]` and every
sequence of swap resolutions (each moving the dragged item to a clamped target
slot, shifting the in-between items by one toward the origin), the resulting
position table is again a bijection onto `[0, n-1]`. -/
theorem resolveSeq_preserves_permutation {n : ℕ} (p : Fin n → ℕ)
    (hp : IsPermOn n p) (steps : List (Fin n × ℕ)) :
    IsPermOn n (resolveSeq n p steps) ∧
      ∀ m, m < n → ∃! i, resolveSeq n p steps i = m := by
  have h := resolveSeq_permOn steps hp
  exact ⟨h, permOn_bijection h⟩

/-- Witness for C1 at a concrete input: the identity table on three items,
after dragging item 0 to slot 2, is still a permutation of `[0, 2]`. -/
theorem resolveSeq_preserves_permutation_witness :
    IsPermOn 3 (resolveSeq 3 (fun i => (i : ℕ)) [(⟨0, by decide⟩, 2)]) ∧
      ∀ m, m < 3 → ∃! i, resolveSeq 3 (fun i => (i : ℕ)) [(⟨0, by decide⟩, 2)] i = m :=
  resolveSeq_preserves_permutation (fun i => (i : ℕ))
    ⟨fun i => i.isLt, fun a b h => Fin.ext h⟩ [(⟨0, by decide⟩, 2)]

/-! ## Swap-resolver scan over item heights

`scanAux` is the `for (const item of sortedItems)` loop of `DraggableItem.tsx`
`onUpdate`: the non-dragged items, sorted by current slot, are scanned with a
running height; the loop breaks at the first item whose vertical center
(`runningY + item.height / 2`) strictly exceeds the dragged item's absolute
offset, and the count of items passed is the raw target position.
-/

/-- The scan loop: returns the number of items passed before the first one whose
center strictly exceeds the offset `y`; `runY` is the accumulated height. -/
def scanAux (y : ℚ) : List ℚ → ℚ → ℕ
  | [], _ => 0
  | h :: rest, runY =>
      if y < runY + h / 2 then 0 else scanAux y rest (runY + h) + 1

/-- The resolved target slot: the scan result clamped by
`Math.max(0, Math.min(listLength - 1, newPos))`. -/
def newPosition (n : ℕ) (hs : List ℚ) (y : ℚ) : ℕ :=
  max 0 (min (n - 1) (scanAux y hs 0))

/-- Vertical center of the `j`-th scanned item when the scan starts from base
offset `r`: the heights before it plus half its own height. -/
def centerFrom (r : ℚ) (hs : List ℚ) (j : ℕ) : ℚ :=
  r + (hs.take j).sum + (hs.getD j 0) / 2

theorem centerFrom_zero (r h : ℚ) (t : List ℚ) :
    centerFrom r (h :: t) 0 = r + h / 2 := by
  simp [centerFrom]

theorem centerFrom_succ (r h : ℚ) (t : List ℚ) (j : ℕ) :
    centerFrom r (h :: t) (j + 1) = centerFrom (r + h) t j := by
  simp only [centerFrom, List.take_succ_cons, List.sum_cons, List.getD_cons_succ]
  ring

theorem scanAux_first_exceeds (y : ℚ) :
    ∀ (hs : List ℚ) (r : ℚ),
      (∀ j, j < scanAux y hs r → centerFrom r hs j ≤ y) ∧
      (scanAux y hs r < hs.length → y < centerFrom r hs (scanAux y hs r)) ∧
      scanAux y hs r ≤ hs.length := by
  intro hs
  induction hs with
  | nil =>
      intro r
      refine ⟨fun j hj => absurd hj (by simp [scanAux]), ?_, by simp [scanAux]⟩
      intro h
      exact absurd h (by simp [scanAux])
  | cons h t ih =>
      intro r
      by_cases hc : y < r + h / 2
      · simp only [scanAux, if_pos hc]
        refine ⟨fun j hj => absurd hj (by omega), ?_, by simp⟩
        intro _
        rw [centerFrom_zero]
        exact hc
      · obtain ⟨ih1, ih2, ih3⟩ := ih (r + h)
        simp only [scanAux, if_neg hc]
        refine ⟨?_, ?_, by simpa using ih3⟩
        · intro j hj
          cases j with
          | zero => rw [centerFrom_zero]; exact le_of_not_lt hc
          | succ j => rw [centerFrom_succ]; exact ih1 j (by omega)
        · intro hlen
          rw [centerFrom_succ]
          exact ih2 (by simpa using hlen)

theorem sum_take_nonneg :
    ∀ (hs : List ℚ), (∀ x ∈ hs, 0 ≤ x) → ∀ j, 0 ≤ (hs.take j).sum := by
  intro hs
  induction hs with
  | nil => intro _ j; simp
  | cons h t ih =>
      intro hp j
      cases j with
      | zero => simp
      | succ j =>
          simp only [List.take_succ_cons, List.sum_cons]
          have h1 := ih (fun x hx => hp x (List.mem_cons_of_mem _ hx)) j
          have h0 := hp h (List.mem_cons_self h t)
          linarith

theorem getD_zero_nonneg :
    ∀ (hs : List ℚ), (∀ x ∈ hs, 0 ≤ x) → ∀ j, 0 ≤ hs.getD j 0 := by
  intro hs
  induction hs with
  | nil => intro _ j; simp [List.getD_nil]
  | cons h t ih =>
      intro hp j
      cases j with
      | zero => rw [List.getD_cons_zero]; exact hp h (List.mem_cons_self h t)
      | succ j =>
          rw [List.getD_cons_succ]
          exact ih (fun x hx => hp x (List.mem_cons_of_mem _ hx)) j

/-- With nonnegative heights, successive centers are nondecreasing. -/
theorem centerFrom_mono_step :
    ∀ (hs : List ℚ), (∀ x ∈ hs, 0 ≤ x) → ∀ (r : ℚ) (j : ℕ),
      centerFrom r hs j ≤ centerFrom r hs (j + 1) := by
  intro hs
  induction hs with
  | nil => intro _ r j; simp [centerFrom, List.getD_nil]
  | cons h t ih =>
      intro hp r j
      have h0 := hp h (List.mem_cons_self h t)
      have hpt : ∀ x ∈ t, 0 ≤ x := fun x hx => hp x (List.mem_cons_of_mem _ hx)
      cases j with
      | zero =>
          rw [centerFrom_zero, centerFrom_succ]
          have hg := getD_zero_nonneg t hpt 0
          have hs0 := sum_take_nonneg t hpt 0
          simp only [centerFrom]
          linarith
      | succ j =>
          rw [centerFrom_succ, centerFrom_succ]
          exact ih hpt (r + h) j

theorem centerFrom_mono (hs : List ℚ) (hpos : ∀ x ∈ hs, 0 ≤ x) (r : ℚ)
    {j k : ℕ} (hjk : j ≤ k) : centerFrom r hs j ≤ centerFrom r hs k := by
  induction k with
  | zero =>
      have hj0 : j = 0 := by omega
      subst hj0
      exact le_refl _
  | succ k ih =>
      rcases Nat.lt_or_ge j (k + 1) with hlt | hge
      · exact le_trans (ih (by omega)) (centerFrom_mono_step hs hpos r k)
      · have : j = k + 1 := by omega
        subst this
        exact le_refl _

/-- C6: the swap-resolver scan passes exactly the items whose centers are at or
below the dragged offset and targets the scan position of the first item whose
vertical center strictly exceeds it, clamped to `[0, n-1]`; concretely, with 5
items of height 60 (non-dragged centers 30, 90, 150, 210) and the slot-0 item
dragged to absolute offset 190, the resolved target slot is 3. -/
theorem scan_targets_first_center_above (hs : List ℚ) (y : ℚ) :
    (∀ j, j < scanAux y hs 0 → centerFrom 0 hs j ≤ y) ∧
    (scanAux y hs 0 < hs.length → y < centerFrom 0 hs (scanAux y hs 0)) ∧
    scanAux y hs 0 ≤ hs.length ∧
    newPosition 5 [60, 60, 60, 60] 190 = 3 := by
  obtain ⟨h1, h2, h3⟩ := scanAux_first_exceeds y hs 0
  refine ⟨h1, h2, h3, ?_⟩
  norm_num [newPosition, scanAux]

/-- Witness for C6 at a concrete input: with two non-dragged items of height 60
and offset 100, the scan passes both, and the first item's center (30) is indeed
at or below the offset. -/
theorem scan_targets_first_center_above_witness :
    centerFrom 0 [(60 : ℚ), 60] 0 ≤ 100 :=
  (scan_targets_first_center_above [(60 : ℚ), 60] 100).1 0
    (by norm_num [scanAux])

/-- C3 counterexample: with one non-dragged item of height 60 (center 30), an
offset exactly at the center resolves the target to slot 1, while an offset
strictly below the center (29) resolves to slot 0 — so at exact center equality
the dragged item does not stay at the lower slot. -/
theorem center_tie_counterexample :
    centerFrom 0 [(60 : ℚ)] 0 = 30 ∧
    newPosition 2 [(60 : ℚ)] 30 = 1 ∧
    newPosition 2 [(60 : ℚ)] 29 = 0 := by
  refine ⟨?_, ?_, ?_⟩
  · simp [centerFrom]
    norm_num
  · norm_num [newPosition, scanAux]
  · norm_num [newPosition, scanAux]

/-- C3 amended: exact center equality resolves to "already past": with
nonnegative heights, the scan passes a non-dragged item (the dragged item's
target moves beyond it) exactly when the dragged offset is greater than or
equal to the item's vertical center, so the dragged item advances as soon as
the offset reaches the center, not only when it strictly exceeds it. -/
theorem scan_tie_resolves_past (hs : List ℚ) (hpos : ∀ x ∈ hs, 0 ≤ x) (y : ℚ)
    (j : ℕ) (hj : j < hs.length) :
    centerFrom 0 hs j ≤ y ↔ j < scanAux y hs 0 := by
  obtain ⟨h1, h2, _⟩ := scanAux_first_exceeds y hs 0
  constructor
  · intro hcy
    by_contra hnot
    have hge : scanAux y hs 0 ≤ j := by omega
    have hlt : scanAux y hs 0 < hs.length := lt_of_le_of_lt hge hj
    have := lt_of_lt_of_le (h2 hlt) (centerFrom_mono hs hpos 0 hge)
    linarith
  · exact h1 j

/-- Witness for C3's amended theorem at a concrete input: one item of height 60,
offset exactly 30 (the center): the item counts as passed. -/
theorem scan_tie_resolves_past_witness :
    0 < scanAux 30 [(60 : ℚ)] 0 :=
  (scan_tie_resolves_past [(60 : ℚ)] (by norm_num) 30 0 (by norm_num)).mp
    (by simp [centerFrom]; norm_num)

/-! ## Drag end: `onEnd` in `DraggableItem.tsx` and `handleDragEnd` in
`DraggableList.tsx` -/

/-- `TAutoScrollDirection` from `types/index.ts`. -/
inductive ScrollDir
  | up
  | down
  | stop
deriving DecidableEq

/-- The state read and written by the `onEnd` gesture callback: the shared
active-drag key, the position table (keyed by item key), the drag session's
starting slot, the auto-scroll direction, the per-item dragging flag, the
number of `stopAutoScroll` requests scheduled, and the `(from, to)` events
emitted so far. -/
structure DragEndState where
  draggableItemKey : Option ℕ
  positions : ℕ → ℕ
  initialIndex : ℕ
  autoScrollDirection : ScrollDir
  isDraggingShared : Bool
  stopRequests : ℕ
  events : List (ℕ × ℕ)

/-- `onEnd` from `DraggableItem.tsx`: returns early when no drag is active;
otherwise sets the direction to `stop`, schedules `stopAutoScroll`, reads the
dragged item's final slot, lowers the per-item dragging flag, and emits one
`(initialIndex, finalPosition)` event.  It does not write `draggableItemKey`. -/
def onEnd (s : DragEndState) : DragEndState :=
  match s.draggableItemKey with
  | none => s
  | some k =>
      { s with
        autoScrollDirection := ScrollDir.stop
        stopRequests := s.stopRequests + 1
        isDraggingShared := false
        events := s.events ++ [(s.initialIndex, s.positions k)] }

/-- `handleDragEnd` from `DraggableList.tsx`: returns early when the indices
are equal, otherwise splices the moved item out of `fromIndex` and inserts it
at `toIndex`.  (For an out-of-range `fromIndex`, impossible for a real drag,
the model simply drops the insertion of the missing element.) -/
def handleDragEnd {α : Type} (order : List α) (f t : ℕ) : List α :=
  if f = t then order
  else
    match order[f]? with
    | none => order.eraseIdx f
    | some a => (order.eraseIdx f).insertIdx t a

/-- The list container's JS-thread state: `currentOrderRef`. -/
structure ListContainer (α : Type) where
  currentOrder : List α

/-- The imperative `getCurrentData()` query. -/
def getCurrentData {α : Type} (c : ListContainer α) : List α := c.currentOrder

/-- Delivery of one `onDragEnd(from, to)` event to the container. -/
def applyDragEndEvent {α : Type} (c : ListContainer α) (f t : ℕ) :
    ListContainer α :=
  ⟨handleDragEnd c.currentOrder f t⟩

theorem insertIdx_eraseIdx_self {α : Type} :
    ∀ (l : List α) (i : ℕ) (h : i < l.length),
      (l.eraseIdx i).insertIdx i (l.get ⟨i, h⟩) = l := by
  intro l
  induction l with
  | nil => intro i h; simp at h
  | cons a t ih =>
      intro i h
      cases i with
      | zero => simp [List.eraseIdx, List.insertIdx]
      | succ i =>
          simp only [List.eraseIdx, List.insertIdx_succ_cons, List.get_cons_succ]
          rw [ih i (by simpa using h)]

/-- C2: dragging the slot-0 item of `[a, b, c]` to slot 2 gives the position
table `a ↦ 2, b ↦ 0, c ↦ 1`, the end handler emits the single event `(0, 2)`,
and the container's `getCurrentData()` afterwards returns `[b, c, a]`; in
general a completed drag updates the order (exactly once, on event delivery)
to the previous order with the moved item spliced out of its origin index and
inserted at its destination index. -/
theorem dragEnd_reorders (α : Type) :
    (∀ i : Fin 3, resolveDrag 3 (fun j => (j : ℕ)) ⟨0, by norm_num⟩ 2 i =
      (fun k => if k = 0 then 2 else if k = 1 then 0 else 1) (i : ℕ)) ∧
    (onEnd ⟨some 0, fun k => if k = 0 then 2 else if k = 1 then 0 else 1, 0,
      ScrollDir.stop, true, 0, []⟩).events = [(0, 2)] ∧
    (∀ a b c : α, getCurrentData (applyDragEndEvent ⟨[a, b, c]⟩ 0 2) = [b, c, a]) ∧
    (∀ (order : List α) (f t : ℕ) (h : f < order.length),
      handleDragEnd order f t = (order.eraseIdx f).insertIdx t (order.get ⟨f, h⟩)) := by
  refine ⟨by decide, rfl, ?_, ?_⟩
  · intro a b c
    simp [getCurrentData, applyDragEndEvent, handleDragEnd, List.eraseIdx,
      List.insertIdx]
  · intro order f t h
    unfold handleDragEnd
    by_cases hft : f = t
    · subst hft
      rw [if_pos rfl, insertIdx_eraseIdx_self order f h]
    · rw [if_neg hft]
      have : order[f]? = some (order.get ⟨f, h⟩) := by
        rw [List.getElem?_eq_getElem h]
        simp
      rw [this]

/-- Witness for C2 at a concrete input: delivering `(1, 0)` on `[1, 2, 3]`
splices index 1 out and reinserts it at index 0. -/
theorem dragEnd_reorders_witness :
    handleDragEnd [1, 2, 3] 1 0 =
      (([1, 2, 3].eraseIdx 1).insertIdx 0 ([1, 2, 3].get ⟨1, by norm_num⟩)) :=
  (dragEnd_reorders ℕ).2.2.2 [1, 2, 3] 1 0 (by norm_num)

/-- C4 counterexample: `onEnd` on a state with an active dragged item leaves
`draggableItemKey` set (it never writes it), so an item is still marked as the
active dragged identity after the drag ends. -/
theorem onEnd_active_key_counterexample :
    (onEnd ⟨some 0, fun _ => 2, 0, ScrollDir.down, true, 0, []⟩).draggableItemKey
      = some 0 := rfl

/-- C4 amended: for every drag that ends normally (`onEnd` with an active
dragged item), the end handler lowers the per-item dragging flag, sets the
auto-scroll direction to `stop` and requests auto-scroll stop exactly once, and
emits exactly one `(startingSlot, finalSlot)` event (also when the slots are
equal); the shared active-drag key, however, is left set — `onEnd` never
clears `draggableItemKey`. -/
theorem onEnd_behavior (s : DragEndState) (k : ℕ)
    (hk : s.draggableItemKey = some k) :
    (onEnd s).isDraggingShared = false ∧
    (onEnd s).autoScrollDirection = ScrollDir.stop ∧
    (onEnd s).stopRequests = s.stopRequests + 1 ∧
    (onEnd s).events = s.events ++ [(s.initialIndex, s.positions k)] ∧
    (onEnd s).draggableItemKey = some k := by
  simp [onEnd, hk]

/-- Witness for C4's amended theorem at a concrete input. -/
theorem onEnd_behavior_witness :
    (onEnd ⟨some 1, fun _ => 3, 1, ScrollDir.up, true, 0, []⟩).events = [(1, 3)] := by
  have h := onEnd_behavior ⟨some 1, fun _ => 3, 1, ScrollDir.up, true, 0, []⟩ 1 rfl
  simpa using h.2.2.2.1

/-- C8: a drag that starts and ends at the same slot leaves the logical order
unchanged: `getCurrentData()` after delivering an `(i, i)` event returns
exactly the sequence it returned before. -/
theorem noop_drag_keeps_order (α : Type) (c : ListContainer α) (i : ℕ) :
    getCurrentData (applyDragEndEvent c i i) = getCurrentData c := by
  simp [getCurrentData, applyDragEndEvent, handleDragEnd]

/-! ## Supplying data: the `useEffect` on `[data]` in `DraggableList.tsx` -/

/-- The position-table re-derivation: `data.forEach((item, index) =>
map[item.id] = index)`; item identities are modelled as `ℕ`. -/
def derivePositions (data : List ℕ) : ℕ → Option ℕ :=
  data.enum.foldl (fun m p => Function.update m p.2 (some p.1)) (fun _ => none)

/-- The container state touched by the data-supply effect: the logical order
ref and the position table. -/
structure EngineState where
  order : List ℕ
  positions : ℕ → Option ℕ

/-- The `useEffect` body: `currentOrderRef.current = data` and
`positions.value = map` derived from the fresh data. -/
def supplyData (_s : EngineState) (data : List ℕ) : EngineState :=
  ⟨data, derivePositions data⟩

/-- C9: supplying the same ordered sequence twice in a row leaves both the
logical order and the position table unchanged — the re-derivation of the
position table from the data is idempotent. -/
theorem rerender_idempotent (s : EngineState) (data : List ℕ) :
    supplyData (supplyData s data) data = supplyData s data := rfl

/-! ## Height table reads (`DraggableItem.tsx`)

The heights map only ever receives positive entries (`onLayout` guards
`height > 0`); an unmeasured item is *absent* (JS `undefined`), not `0`.
The drag-math guards compare with `=== 0`, which an absent entry never
satisfies, while the arithmetic reads use `|| 0`.
-/

/-- The JS test `v === 0` on a possibly-absent (`undefined`) map entry. -/
def jsStrictEqZero (v : Option ℚ) : Bool :=
  match v with
  | some h => decide (h = 0)
  | none => false

/-- The JS read `itemHeights.value[key] || 0`. -/
def heightOrZero (v : Option ℚ) : ℚ := v.getD 0

/-- The guard of `onUpdate`: it proceeds to the swap computation unless
`!draggableItemKey.value || itemHeights.value[draggableItemKey.value] === 0`. -/
def onUpdateProceeds (active : Option ℕ) (H : ℕ → Option ℚ) : Bool :=
  match active with
  | none => false
  | some k => !(jsStrictEqZero (H k))

/-- `onLayout` from `DraggableItem.tsx`: stores the measured height only when
it is positive. -/
def reportLayout (H : ℕ → Option ℚ) (k : ℕ) (h : ℚ) : ℕ → Option ℚ :=
  if 0 < h then Function.update H k (some h) else H

/-- C7 (code bug): unmeasured heights read as `0` in the drag arithmetic, and
`onLayout` keeps every stored height positive — so an unmeasured entry is
always absent, never `0` — yet `onUpdate`'s suppression guard compares the
absent entry with `=== 0`, which is false, so the swap computation *does*
proceed for a dragged item whose height was never measured. -/
theorem unmeasured_height_guard (H₀ : ℕ → Option ℚ)
    (hpos : ∀ j x, H₀ j = some x → 0 < x) :
    heightOrZero none = 0 ∧
    onUpdateProceeds (some 0) (fun _ => none) = true ∧
    (∀ k h j x, reportLayout H₀ k h j = some x → 0 < x) := by
  refine ⟨rfl, rfl, ?_⟩
  intro k h j x hx
  unfold reportLayout at hx
  by_cases hh : 0 < h
  · rw [if_pos hh] at hx
    by_cases hjk : j = k
    · subst hjk
      rw [Function.update_same] at hx
      cases hx
      exact hh
    · rw [Function.update_noteq hjk] at hx
      exact hpos j x hx
  · rw [if_neg hh] at hx
    exact hpos j x hx

/-- Witness for C7's theorem at a concrete input: starting from the empty
heights map and reporting a measurement of 5, the stored entry is positive. -/
theorem unmeasured_height_guard_witness : (0 : ℚ) < 5 :=
  (unmeasured_height_guard (fun _ => none) (by intro j x hx; simp at hx)).2.2
    0 5 0 5 (by norm_num [reportLayout, Function.update])

/-! ## Auto-scroll tick (`useAutoScroll.ts`, `startAutoScroll`) -/

/-- The direction captured by `startAutoScroll`'s interval closure
(only `'up' | 'down'` can be passed). -/
inductive UD
  | up
  | down
deriving DecidableEq

/-- The state the interval callback reads and writes: the scroll offset, the
shared direction value, and whether this interval is still installed. -/
structure ScrollState where
  scrollY : ℚ
  direction : ScrollDir
  timerActive : Bool

/-- `Math.max(0, contentHeight.value - containerHeight.value)`. -/
def maxScrollOf (contentH containerH : ℚ) : ℚ := max 0 (contentH - containerH)

/-- The clamped scroll advance computed by one tick:
`Math.max(0, currentScroll - speed)` going up,
`Math.min(maxScroll, currentScroll + speed)` going down. -/
def nextScroll (d : UD) (speed contentH containerH : ℚ) (s : ScrollState) : ℚ :=
  match d with
  | UD.up => max 0 (s.scrollY - speed)
  | UD.down => min (maxScrollOf contentH containerH) (s.scrollY + speed)

/-- One interval tick: a cleared timer no longer runs; when the clamped new
offset equals the current one the callback clears its interval and reports
`stop`; otherwise it jumps the offset to the new value. -/
def autoTick (d : UD) (speed contentH containerH : ℚ) (s : ScrollState) :
    ScrollState :=
  if s.timerActive = false then s
  else if nextScroll d speed contentH containerH s = s.scrollY then
    { s with timerActive := false, direction := ScrollDir.stop }
  else
    { s with scrollY := nextScroll d speed contentH containerH s }

theorem maxScrollOf_nonneg (contentH containerH : ℚ) :
    0 ≤ maxScrollOf contentH containerH :=
  le_max_left 0 _

theorem autoTick_bounds {d : UD} {speed contentH containerH : ℚ}
    (hsp : 0 ≤ speed) (s : ScrollState) (h0 : 0 ≤ s.scrollY)
    (h1 : s.scrollY ≤ maxScrollOf contentH containerH) :
    0 ≤ (autoTick d speed contentH containerH s).scrollY ∧
      (autoTick d speed contentH containerH s).scrollY ≤
        maxScrollOf contentH containerH := by
  unfold autoTick
  split_ifs with hact hstay
  · exact ⟨h0, h1⟩
  · exact ⟨h0, h1⟩
  · cases d with
    | up =>
        simp only [nextScroll]
        constructor
        · exact le_max_left 0 _
        · exact max_le (maxScrollOf_nonneg _ _) (by linarith)
    | down =>
        simp only [nextScroll]
        constructor
        · exact le_min (maxScrollOf_nonneg _ _) (by linarith)
        · exact min_le_left _ _

theorem autoTick_iter_bounds {d : UD} {speed contentH containerH : ℚ}
    (hsp : 0 ≤ speed) :
    ∀ (n : ℕ) (s : ScrollState), 0 ≤ s.scrollY →
      s.scrollY ≤ maxScrollOf contentH containerH →
      0 ≤ ((autoTick d speed contentH containerH)^[n] s).scrollY ∧
        ((autoTick d speed contentH containerH)^[n] s).scrollY ≤
          maxScrollOf contentH containerH := by
  intro n
  induction n with
  | zero => intro s h0 h1; exact ⟨h0, h1⟩
  | succ n ih =>
      intro s h0 h1
      rw [Function.iterate_succ_apply]
      obtain ⟨g0, g1⟩ := autoTick_bounds hsp s h0 h1
      exact ih _ g0 g1

/-- C5: starting within bounds, any number of auto-scroll ticks keeps the
scroll offset within `[0, max(0, contentHeight - containerHeight)]`; a tick
that can make no further movement clears its own interval and sets the
direction to `stop`; and concretely, with content height 1000 and container
height 400 the offset never exceeds 600 when scrolling down from 0. -/
theorem autoScroll_stays_in_bounds (d : UD) (speed contentH containerH : ℚ)
    (hsp : 0 ≤ speed) :
    (∀ s : ScrollState, 0 ≤ s.scrollY →
      s.scrollY ≤ maxScrollOf contentH containerH →
      ∀ n : ℕ, 0 ≤ ((autoTick d speed contentH containerH)^[n] s).scrollY ∧
        ((autoTick d speed contentH containerH)^[n] s).scrollY ≤
          maxScrollOf contentH containerH) ∧
    (∀ s : ScrollState, s.timerActive = true →
      nextScroll d speed contentH containerH s = s.scrollY →
      (autoTick d speed contentH containerH s).timerActive = false ∧
      (autoTick d speed contentH containerH s).direction = ScrollDir.stop) ∧
    maxScrollOf 1000 400 = 600 ∧
    (∀ n : ℕ,
      ((autoTick UD.down 8 1000 400)^[n] ⟨0, ScrollDir.down, true⟩).scrollY ≤ 600) := by
  refine ⟨?_, ?_, ?_, ?_⟩
  · intro s h0 h1 n
    exact autoTick_iter_bounds hsp n s h0 h1
  · intro s hact hstay
    unfold autoTick
    rw [hact]
    simp [hstay]
  · unfold maxScrollOf
    norm_num
  · intro n
    have hb : (0 : ℚ) ≤ 8 := by norm_num
    have h := (@autoTick_iter_bounds UD.down 8 1000 400 hb n
      ⟨0, ScrollDir.down, true⟩
      (by norm_num) (by unfold maxScrollOf; norm_num)).2
    have hm : maxScrollOf 1000 400 = 600 := by unfold maxScrollOf; norm_num
    rw [hm] at h
    exact h

/-- Witness for C5 at a concrete input: the maximal scrollable extent for
content 1000 in a container of 400 is 600. -/
theorem autoScroll_stays_in_bounds_witness : maxScrollOf 1000 400 = 600 :=
  (autoScroll_stays_in_bounds UD.up 8 1000 400 (by norm_num)).2.2.1

/-! ## Interval lifecycle (`useAutoScroll.ts`)

`scrollIntervalRef` holds at most one interval handle.  `startAutoScroll`
clears any existing interval before installing a new one; `stopAutoScroll`
clears it and nulls the ref; the tick's boundary branch does the same; the
unmount cleanup clears without nulling.  Interval handles are modelled as
fresh naturals, `live` is the set of installed intervals.
-/

/-- The interval-lifecycle operations of `useAutoScroll.ts`. -/
inductive TimerOp
  | tstart
  | tstop
  | tunmount
  | ttickstop

/-- The timer world: the set of currently installed intervals, the ref's
current handle, and a fresh-handle counter. -/
structure TimerSys where
  live : Finset ℕ
  ref : Option ℕ
  next : ℕ

/-- One lifecycle step.  `tstart`: `clearInterval` on any held handle, then
install a fresh interval and store its handle.  `tstop`: `clearInterval` and
null the ref.  `tunmount`: the cleanup, `clearInterval` without nulling.
`ttickstop`: the tick's boundary branch, `clearInterval` and null the ref. -/
def applyTimerOp (s : TimerSys) : TimerOp → TimerSys
  | TimerOp.tstart =>
      { live := insert s.next
          (match s.ref with | none => s.live | some t => s.live.erase t)
        ref := some s.next
        next := s.next + 1 }
  | TimerOp.tstop =>
      match s.ref with
      | none => s
      | some t => { s with live := s.live.erase t, ref := none }
  | TimerOp.tunmount =>
      match s.ref with
      | none => s
      | some t => { s with live := s.live.erase t }
  | TimerOp.ttickstop =>
      match s.ref with
      | none => s
      | some t => { s with live := s.live.erase t, ref := none }

/-- The hook's initial state: no interval installed, ref null. -/
def initTimerSys : TimerSys := ⟨∅, none, 0⟩

/-- Run a sequence of lifecycle operations from the initial state. -/
def runTimerOps (ops : List TimerOp) : TimerSys :=
  ops.foldl applyTimerOp initTimerSys

/-- Every installed interval is the one the ref holds. -/
def TimerInv (s : TimerSys) : Prop := ∀ t ∈ s.live, s.ref = some t

theorem applyTimerOp_inv {s : TimerSys} (hs : TimerInv s) (op : TimerOp) :
    TimerInv (applyTimerOp s op) := by
  cases op with
  | tstart =>
      intro t ht
      simp only [applyTimerOp, Finset.mem_insert] at ht ⊢
      rcases ht with h | h
      · rw [h]
      · exfalso
        cases href : s.ref with
        | none =>
            rw [href] at h
            exact Option.noConfusion ((href ▸ hs t h))
        | some r =>
            rw [href] at h
            obtain ⟨hne, hmem⟩ := Finset.mem_erase.mp h
            have := hs t hmem
            rw [href] at this
            exact hne (Option.some.inj this).symm
  | tstop =>
      cases href : s.ref with
      | none => simpa [applyTimerOp, href] using hs
      | some r =>
          intro t ht
          simp only [applyTimerOp, href] at ht
          obtain ⟨hne, hmem⟩ := Finset.mem_erase.mp ht
          have := hs t hmem
          rw [href] at this
          exact absurd (Option.some.inj this).symm hne
  | tunmount =>
      cases href : s.ref with
      | none => simpa [applyTimerOp, href] using hs
      | some r =>
          intro t ht
          simp only [applyTimerOp, href] at ht ⊢
          obtain ⟨hne, hmem⟩ := Finset.mem_erase.mp ht
          have := hs t hmem
          rw [href] at this
          exact absurd (Option.some.inj this).symm hne
  | ttickstop =>
      cases href : s.ref with
      | none => simpa [applyTimerOp, href] using hs
      | some r =>
          intro t ht
          simp only [applyTimerOp, href] at ht
          obtain ⟨hne, hmem⟩ := Finset.mem_erase.mp ht
          have := hs t hmem
          rw [href] at this
          exact absurd (Option.some.inj this).symm hne

theorem foldl_timer_inv :
    ∀ (ops : List TimerOp) (s : TimerSys), TimerInv s →
      TimerInv (ops.foldl applyTimerOp s) := by
  intro ops
  induction ops with
  | nil => intro s hs; exact hs
  | cons op rest ih =>
      intro s hs
      exact ih _ (applyTimerOp_inv hs op)

theorem timerInv_card_le_one {s : TimerSys} (hs : TimerInv s) :
    s.live.card ≤ 1 := by
  apply Finset.card_le_one.mpr
  intro a ha b hb
  have h1 := hs a ha
  have h2 := hs b hb
  rw [h1] at h2
  exact Option.some.inj h2

theorem timerInv_unmount_empty {s : TimerSys} (hs : TimerInv s) :
    (applyTimerOp s TimerOp.tunmount).live = ∅ := by
  cases href : s.ref with
  | none =>
      simp only [applyTimerOp, href]
      apply Finset.eq_empty_iff_forall_not_mem.mpr
      intro t ht
      exact Option.noConfusion (href ▸ hs t ht)
  | some r =>
      simp only [applyTimerOp, href]
      apply Finset.eq_empty_iff_forall_not_mem.mpr
      intro t ht
      obtain ⟨hne, hmem⟩ := Finset.mem_erase.mp ht
      have := hs t hmem
      rw [href] at this
      exact hne (Option.some.inj this).symm

/-- C10: for every sequence of start/stop/unmount/tick-boundary operations
from the hook's initial state, every installed interval is the one the ref
holds, so at most one interval timer exists at any time, and running the
unmount cleanup leaves no interval installed. -/
theorem single_timer_lifecycle (ops : List TimerOp) :
    TimerInv (runTimerOps ops) ∧
    (runTimerOps ops).live.card ≤ 1 ∧
    (applyTimerOp (runTimerOps ops) TimerOp.tunmount).live = ∅ := by
  have hinv : TimerInv (runTimerOps ops) :=
    foldl_timer_inv ops initTimerSys (by intro t ht; simp [initTimerSys] at ht)
  exact ⟨hinv, timerInv_card_le_one hinv, timerInv_unmount_empty hinv⟩

end DraggableOrderList
